import Mathlib

/-
  Verification of the semantic dependency graph and diff/propagation engine
  of the ngtsc incremental compiler.

  The first part embeds the symbol-identity resolver from
  packages/compiler-cli/src/ngtsc/ngmodule_semantics/src/api.ts.  That file
  contains two versions of the resolver `getSymbolIdentifier`; they are
  embedded here as `V1.getSymbolIdentifier` (the version that additionally
  requires an export modifier, lines 75-104 of the file) and
  `V2.getSymbolIdentifier` (the version that only checks that the parent is
  a source file, lines 129-138).

  The second part models the semantic dependency graph, the diff engine,
  the fixpoint propagation engine, the remote-scope resolver and the
  rebuild orchestrator.  Those components are not part of the sources of
  this repository (only their tests and the symbol API are), so they are
  modelled from the specification; each such definition carries a doc
  comment starting with "Modelled from the spec:".
-/

namespace NgtscSemantics

/-- Model of the TypeScript syntax kinds that the identity resolver
examines: the resolver only ever asks whether a modifier is the
`ExportKeyword`. -/
inductive SyntaxKind where
  | ExportKeyword
  | DefaultKeyword
  | DeclareKeyword
  | OtherModifier
deriving DecidableEq, Repr

/-- Model of a TypeScript modifier node: a node carrying a syntax kind. -/
structure Modifier where
  kind : SyntaxKind
deriving DecidableEq, Repr

/-- Model of the parent node of a class declaration, restricted to the
distinction the resolver makes with `ts.isSourceFile(decl.parent)`:
the parent is the source file itself (a top-level declaration), a function
body (a nested declaration), or some other node. -/
inductive ParentNode where
  | SourceFile
  | FunctionBody
  | OtherNode
deriving DecidableEq, Repr

/-- Embeds `ts.isSourceFile`, applied to the parent of a declaration. -/
def isSourceFile : ParentNode → Bool
  | ParentNode.SourceFile => true
  | _ => false

/-- Model of the `name` identifier node of a class declaration, carrying
its `text`. -/
structure NameNode where
  text : String
deriving DecidableEq, Repr

/-- Model of a `ClassDeclaration` as consumed by `getSymbolIdentifier`:
its parent node, its optional modifier list (`undefined` is `none`), and
its name node. -/
structure ClassDeclaration where
  parent : ParentNode
  modifiers : Option (List Modifier)
  name : NameNode
deriving DecidableEq, Repr

namespace V1

/-- Embeds `hasExportModifier` (api.ts lines 106-109):
`decl.modifiers !== undefined && decl.modifiers.some(mod => mod.kind ===
ts.SyntaxKind.ExportKeyword)`. -/
def hasExportModifier (decl : ClassDeclaration) : Bool :=
  match decl.modifiers with
  | none => false
  | some mods => mods.any (fun m => decide (m.kind = SyntaxKind.ExportKeyword))

/-- Embeds the first definition of `getSymbolIdentifier` (api.ts lines
75-104): `null` when the parent is not a source file, `null` when the
declaration carries no export modifier, otherwise the class name. -/
def getSymbolIdentifier (decl : ClassDeclaration) : Option String :=
  if !(isSourceFile decl.parent) then
    none
  else if !(hasExportModifier decl) then
    none
  else
    some decl.name.text

end V1

namespace V2

/-- Embeds the second definition of `getSymbolIdentifier` (api.ts lines
129-138): `null` when the parent is not a source file, otherwise the class
name, with no export-modifier check. -/
def getSymbolIdentifier (decl : ClassDeclaration) : Option String :=
  if !(isSourceFile decl.parent) then
    none
  else
    some decl.name.text

end V2

/-- Modelled from the spec: a cross-generation symbol key.  Symbols are
matched across independently-built graphs only by their `(path,
identifier)` pair, never by reference equality (spec, section 3).  The
identifier component is optional: a symbol with no identifier is
untrackable. -/
abbrev SymKey := String × Option String

/-- Modelled from the spec: the kind tag of a directed "uses" edge of the
dependency graph (spec, section 3): an explicit import or use, a template
selector or pipe-name match, or a declared circular reference requiring
deferred scope resolution. -/
inductive EdgeKind where
  | DirectReference
  | TemplateMatch
  | RemoteScopeCycle
deriving DecidableEq, Repr

/-- Modelled from the spec: the kind-specific public-API metadata of a
semantic symbol (spec, section 4.2), one variant per declaration
category.  The unrecognized (externally declared) variant carries an
abstract fingerprint of its declaration node, since only provable
byte-identity of the node makes it comparable. -/
inductive SymbolApi where
  | directiveKind (selector : String) (inputs : Finset (String × String))
      (outputs : Finset (String × String)) (exportAs : Finset String)
  | pipeKind (pipeName : String)
  | moduleKind (declarations : Finset SymKey) (imports : Finset SymKey)
  | unrecognizedKind (declNode : Nat)
deriving DecidableEq

/-- Modelled from the spec: a semantic symbol of one build generation
(spec, section 3): the absolute path of its declaring file, its optional
stable identifier, and its kind-specific public-API metadata. -/
structure SemSymbol where
  path : String
  identifier : Option String
  api : SymbolApi
deriving DecidableEq

/-- The cross-generation key of a symbol: its `(path, identifier)` pair. -/
def symKey (s : SemSymbol) : SymKey := (s.path, s.identifier)

/-- Modelled from the spec: a directed "uses" edge, referencing its source
and target node by `(path, identifier)` key (spec, section 3). -/
structure Edge where
  src : SymKey
  kind : EdgeKind
  tgt : SymKey
deriving DecidableEq

/-- Modelled from the spec: the dependency graph of one build generation:
all semantic symbols produced in that generation plus the directed "uses"
edges between them.  Graphs may legitimately contain cycles. -/
structure Graph where
  symbols : List SemSymbol
  edges : List Edge

/-- The set of keys of all symbols of a graph. -/
def graphKeys (g : Graph) : Finset SymKey := (g.symbols.map symKey).toFinset

/-- Modelled from the spec: the per-variant public-API comparison
`isPublicApiAffected` (spec, section 4.2).  Same-kind symbols compare
their variant fields; a cross-kind comparison defaults to affected; an
unrecognized symbol is affected unless its declaration node is provably
unchanged. -/
def isPublicApiAffected (current previous : SymbolApi) : Bool :=
  match current, previous with
  | SymbolApi.directiveKind sel ins outs ea,
    SymbolApi.directiveKind psel pins pouts pea =>
      !(decide (sel = psel) && decide (ins = pins) &&
        decide (outs = pouts) && decide (ea = pea))
  | SymbolApi.pipeKind n, SymbolApi.pipeKind pn => !(decide (n = pn))
  | SymbolApi.moduleKind ds ims, SymbolApi.moduleKind pds pims =>
      !(decide (ds = pds) && decide (ims = pims))
  | SymbolApi.unrecognizedKind nd, SymbolApi.unrecognizedKind pnd =>
      !(decide (nd = pnd))
  | _, _ => true

/-- Modelled from the spec: look up the same-identity symbol of a
generation by `(path, identifier)` key (spec, sections 4.2 and 4.3). -/
def lookupSymbol (g : Graph) (k : SymKey) : Option SemSymbol :=
  g.symbols.find? (fun s => decide (symKey s = k))

/-- Modelled from the spec: the per-symbol condition of the diff engine
(spec, section 4.3): a symbol of the current generation is changed when
its identifier is `None`, when no same-identity symbol exists in the
previous generation, or when its public API is affected relative to that
symbol. -/
def symbolChanged (previous : Graph) (s : SemSymbol) : Bool :=
  s.identifier.isNone ||
    (match lookupSymbol previous (symKey s) with
     | none => true
     | some p => isPublicApiAffected s.api p.api)

/-- Modelled from the spec: the diff engine `computeChangedSymbols`
(spec, section 4.3), producing the propagation seed. -/
def computeChangedSymbols (current previous : Graph) : Finset SymKey :=
  ((current.symbols.filter (symbolChanged previous)).map symKey).toFinset

/-- One-step successors of a set of keys along edges of one kind. -/
def succsOf (g : Graph) (kd : EdgeKind) (s : Finset SymKey) : Finset SymKey :=
  ((g.edges.filter
      (fun e => decide (e.kind = kd) && decide (e.src ∈ s))).map Edge.tgt).toFinset

/-- One saturation step of the reachability computation: add the one-step
successors of the frontier. -/
def reachStep (g : Graph) (kd : EdgeKind) (s : Finset SymKey) : Finset SymKey :=
  s ∪ succsOf g kd s

/-- Modelled from the spec: the set of symbols a key transitively
references via edges of one kind (one or more edges), computed by
saturating the one-step successor map.  A fuel of the number of edges of
the graph suffices for saturation. -/
def reach (g : Graph) (kd : EdgeKind) (k : SymKey) : Finset SymKey :=
  (reachStep g kd)^[g.edges.length] (succsOf g kd {k})

/-- Modelled from the spec: the set of symbols a symbol transitively
references via `TemplateMatch` edges (spec, section 4.4, condition 3). -/
def templateMatchSet (g : Graph) (k : SymKey) : Finset SymKey :=
  reach g EdgeKind.TemplateMatch k

/-- Modelled from the spec: the remote-scope cycle participation of a
symbol (spec, section 4.5): the set of symbols on a common
`RemoteScopeCycle` reference cycle with it, empty when the symbol is on no
such cycle. -/
def rscCycleSet (g : Graph) (k : SymKey) : Finset SymKey :=
  if k ∈ reach g EdgeKind.RemoteScopeCycle k then
    (reach g EdgeKind.RemoteScopeCycle k).filter
      (fun j => k ∈ reach g EdgeKind.RemoteScopeCycle j)
  else ∅

/-- Modelled from the spec: the remote-scope resolver (spec, section 4.5):
every symbol of the current generation whose remote-scope cycle
participation differs from the previous generation is added to the
re-emit set, independent of ordinary propagation. -/
def remoteScopeFixups (cur prev : Graph) : Finset SymKey :=
  ((cur.symbols.filter
      (fun s => !(decide (rscCycleSet cur (symKey s) = rscCycleSet prev (symKey s))))).map
    symKey).toFinset

/-- Whether a key has an edge of any kind into the given set. -/
def hasEdgeInto (g : Graph) (k : SymKey) (aff : Finset SymKey) : Bool :=
  g.edges.any (fun e => decide (e.src = k) && decide (e.tgt ∈ aff))

/-- Modelled from the spec: the default `isEmitAffected` predicate of a
symbol (spec, section 4.4, condition 2): true when any used symbol is in
the public-API-affected set. -/
def isEmitAffectedDefault (g : Graph) (k : SymKey) (publicApiAffected : Finset SymKey) : Bool :=
  hasEdgeInto g k publicApiAffected

/-- Modelled from the spec: the per-symbol condition of one propagation
pass (spec, section 4.4): a symbol is emit-affected when (1) it is in the
seed or has no identity, (2) it has an edge of any kind to an already
emit-affected symbol and its own `isEmitAffected` predicate fires, or (3)
the set of symbols it transitively references via `TemplateMatch` edges
differs between generations. -/
def emitRule (cur prev : Graph) (seed acc : Finset SymKey) (s : SemSymbol) : Bool :=
  decide (symKey s ∈ seed) || s.identifier.isNone ||
    (hasEdgeInto cur (symKey s) acc && isEmitAffectedDefault cur (symKey s) seed) ||
    !(decide (templateMatchSet cur (symKey s) = templateMatchSet prev (symKey s)))

/-- Modelled from the spec: one re-scan of all nodes of the current graph
(spec, section 4.4): keep the already affected set and add every symbol
whose emit rule fires. -/
def propagateStep (cur prev : Graph) (seed : Finset SymKey) (acc : Finset SymKey) :
    Finset SymKey :=
  acc ∪ ((cur.symbols.filter (emitRule cur prev seed acc)).map symKey).toFinset

/-- Modelled from the spec: the propagation engine `computeEmitAffected`
(spec, section 4.4): re-scan the nodes until no new symbol is added; the
finite graph and monotone set growth bound the number of useful re-scans
by the number of nodes. -/
def computeEmitAffected (cur prev : Graph) (seed : Finset SymKey) : Finset SymKey :=
  (propagateStep cur prev seed)^[cur.symbols.length] ∅

/-- Modelled from the spec: project a set of symbol keys to the set of
files declaring them (spec, section 4.6). -/
def projectToFiles (ks : Finset SymKey) : Finset String :=
  ks.image Prod.fst

/-- Modelled from the spec: the rebuild orchestrator (spec, section 4.6):
the final re-emit set is the union of the directly changed units, the
files of the emit-affected symbols, and the files of the remote-scope
fixup symbols. -/
def finalReemitSet (cur prev : Graph) (directlyChanged : Finset String) : Finset String :=
  directlyChanged ∪
    projectToFiles (computeEmitAffected cur prev (computeChangedSymbols cur prev)) ∪
    projectToFiles (remoteScopeFixups cur prev)

/-- Modelled from the spec: the two artifact kinds a re-emitted
compilation unit produces (spec, section 4.6): the primary output artifact
and the declaration/type-summary artifact. -/
inductive ArtifactKind where
  | primaryJs
  | declarationDts
deriving DecidableEq, Repr

/-- Modelled from the spec: the artifacts written by the emit pass (spec,
section 4.6): each re-emitted compilation unit produces its primary
artifact and its declaration artifact as a pair. -/
def writtenArtifacts (reemit : Finset String) : Finset (String × ArtifactKind) :=
  reemit.image (fun u => (u, ArtifactKind.primaryJs)) ∪
    reemit.image (fun u => (u, ArtifactKind.declarationDts))

/-- Modelled from the spec: transitive reference along edges of one kind,
as a path relation: one edge of the kind, or a path extended by one more
edge. -/
inductive ReachesVia (g : Graph) (kd : EdgeKind) : SymKey → SymKey → Prop where
  | single (e : Edge) (he : e ∈ g.edges) (hk : e.kind = kd) : ReachesVia g kd e.src e.tgt
  | tail (a : SymKey) (e : Edge) (h : ReachesVia g kd a e.src) (he : e ∈ g.edges)
      (hk : e.kind = kd) : ReachesVia g kd a e.tgt

/-- Two symbols are on a common remote-scope cycle when each transitively
references the other via `RemoteScopeCycle` edges. -/
def onCommonRscCycle (g : Graph) (m x : SymKey) : Prop :=
  ReachesVia g EdgeKind.RemoteScopeCycle m x ∧
    ReachesVia g EdgeKind.RemoteScopeCycle x m

/-- The targets of all edges of one kind: the universe of the
reachability computation. -/
def edgeTargets (g : Graph) (kd : EdgeKind) : Finset SymKey :=
  ((g.edges.filter (fun e => decide (e.kind = kd))).map Edge.tgt).toFinset

/-- Whether an edge makes its source a direct consumer of the given
target key: a `DirectReference` or `TemplateMatch` edge from the source
to the target. -/
def isConsumerEdge (k target : SymKey) (e : Edge) : Bool :=
  decide (e.src = k) && decide (e.tgt = target) &&
    (decide (e.kind = EdgeKind.DirectReference) ||
      decide (e.kind = EdgeKind.TemplateMatch))

/-- The direct consumers of a key in a graph: the symbols that have a
`DirectReference` or `TemplateMatch` edge to it. -/
def directConsumers (g : Graph) (k : SymKey) : Finset SymKey :=
  ((g.symbols.filter (fun s => g.edges.any (isConsumerEdge (symKey s) k))).map
    symKey).toFinset

section Saturation

variable {α : Type}

/-- A set is contained in every iterate of an inflationary set function. -/
theorem subset_iterate (f : Finset α → Finset α) (hincl : ∀ s, s ⊆ f s)
    (n : Nat) (s : Finset α) : s ⊆ f^[n] s := by
  induction n generalizing s with
  | zero => simp
  | succ k ih =>
      rw [Function.iterate_succ_apply]
      exact (hincl s).trans (ih (f s))

/-- Iterates of a monotone set function started inside a closed set stay
inside it. -/
theorem iterate_subset_of_closed (f : Finset α → Finset α)
    (hmono : ∀ s t, s ⊆ t → f s ⊆ f t) (s₀ T : Finset α)
    (hs₀ : s₀ ⊆ T) (hT : f T ⊆ T) (n : Nat) : f^[n] s₀ ⊆ T := by
  induction n with
  | zero => simpa using hs₀
  | succ k ih =>
      rw [Function.iterate_succ_apply']
      exact (hmono _ _ ih).trans hT

/-- Iterates of a bounded set function started inside the bound stay
inside the bound. -/
theorem iterate_subset_of_bound (f : Finset α → Finset α) (U : Finset α)
    (hbound : ∀ s, s ⊆ U → f s ⊆ U) (s₀ : Finset α) (hs₀ : s₀ ⊆ U) (n : Nat) :
    f^[n] s₀ ⊆ U := by
  induction n with
  | zero => simpa using hs₀
  | succ k ih =>
      rw [Function.iterate_succ_apply']
      exact hbound _ ih

/-- An inflationary set function bounded by a finite universe reaches a
fixed point after at most as many iterations as the universe has
elements. -/
theorem iterate_is_fixed_point (f : Finset α → Finset α) (U : Finset α)
    (hincl : ∀ s, s ⊆ f s) (hbound : ∀ s, s ⊆ U → f s ⊆ U)
    (s₀ : Finset α) (hs₀ : s₀ ⊆ U) (n : Nat) (hn : U.card ≤ n) :
    f (f^[n] s₀) = f^[n] s₀ := by
  by_contra hne
  have hstrict : ∀ k, k ≤ n → f (f^[k] s₀) ≠ f^[k] s₀ := by
    intro k hk hfix
    apply hne
    have hrepr : n = (n - k) + k := (Nat.sub_add_cancel hk).symm
    have hsame : f^[n] s₀ = f^[k] s₀ := by
      rw [hrepr, Function.iterate_add_apply]
      exact Function.iterate_fixed hfix _
    rw [hsame, hfix]
  have hcard : ∀ k, k ≤ n + 1 → k ≤ (f^[k] s₀).card := by
    intro k
    induction k with
    | zero => intro _; exact Nat.zero_le _
    | succ j ih =>
        intro hk
        have hj : j ≤ n := by omega
        have hss : f^[j] s₀ ⊂ f^[j + 1] s₀ := by
          rw [Function.iterate_succ_apply']
          exact (hincl _).ssubset_of_ne (Ne.symm (hstrict j hj))
        have hlt := Finset.card_lt_card hss
        have hji := ih (by omega)
        omega
  have hbd : f^[n + 1] s₀ ⊆ U := iterate_subset_of_bound f U hbound s₀ hs₀ (n + 1)
  have hle := Finset.card_le_card hbd
  have hge := hcard (n + 1) (le_refl _)
  omega

end Saturation

/-- The edge-into test is monotone in the affected set. -/
theorem hasEdgeInto_mono {g : Graph} {k : SymKey} {acc acc' : Finset SymKey}
    (h : acc ⊆ acc') (hc : hasEdgeInto g k acc = true) : hasEdgeInto g k acc' = true := by
  unfold hasEdgeInto at hc ⊢
  simp only [List.any_eq_true, Bool.and_eq_true, decide_eq_true_eq] at hc ⊢
  obtain ⟨e, he, h1, h2⟩ := hc
  exact ⟨e, he, h1, h h2⟩

/-- The per-symbol emit rule is monotone in the accumulated affected set. -/
theorem emitRule_mono {cur prev : Graph} {seed acc acc' : Finset SymKey}
    (h : acc ⊆ acc') {s : SemSymbol} (hr : emitRule cur prev seed acc s = true) :
    emitRule cur prev seed acc' s = true := by
  unfold emitRule at hr ⊢
  simp only [Bool.or_eq_true, Bool.and_eq_true] at hr ⊢
  rcases hr with ((hseed | hnone) | ⟨hedge, hdef⟩) | htm
  · exact Or.inl (Or.inl (Or.inl hseed))
  · exact Or.inl (Or.inl (Or.inr hnone))
  · exact Or.inl (Or.inr ⟨hasEdgeInto_mono h hedge, hdef⟩)
  · exact Or.inr htm

/-- One propagation pass never drops an already affected symbol. -/
theorem subset_propagateStep (cur prev : Graph) (seed acc : Finset SymKey) :
    acc ⊆ propagateStep cur prev seed acc :=
  Finset.subset_union_left

/-- One propagation pass is monotone in the accumulated affected set. -/
theorem propagateStep_mono (cur prev : Graph) (seed : Finset SymKey) :
    ∀ acc acc', acc ⊆ acc' →
      propagateStep cur prev seed acc ⊆ propagateStep cur prev seed acc' := by
  intro acc acc' h x hx
  unfold propagateStep at hx ⊢
  rw [Finset.mem_union] at hx ⊢
  rcases hx with hxa | hxf
  · exact Or.inl (h hxa)
  · right
    rw [List.mem_toFinset, List.mem_map] at hxf ⊢
    obtain ⟨s, hs, hkey⟩ := hxf
    rw [List.mem_filter] at hs
    exact ⟨s, List.mem_filter.mpr ⟨hs.1, emitRule_mono h hs.2⟩, hkey⟩

/-- One propagation pass only ever adds keys of current-generation
symbols. -/
theorem propagateStep_bound (cur prev : Graph) (seed : Finset SymKey) :
    ∀ acc, acc ⊆ graphKeys cur → propagateStep cur prev seed acc ⊆ graphKeys cur := by
  intro acc hacc x hx
  unfold propagateStep at hx
  rw [Finset.mem_union] at hx
  rcases hx with hxa | hxf
  · exact hacc hxa
  · rw [List.mem_toFinset, List.mem_map] at hxf
    obtain ⟨s, hs, hkey⟩ := hxf
    rw [List.mem_filter] at hs
    unfold graphKeys
    rw [List.mem_toFinset]
    exact hkey ▸ List.mem_map_of_mem symKey hs.1

/-- The emit-affected set computed by the propagation engine is a fixed
point of the propagation pass: one more re-scan adds no symbol. -/
theorem computeEmitAffected_fixed (cur prev : Graph) (seed : Finset SymKey) :
    propagateStep cur prev seed (computeEmitAffected cur prev seed) =
      computeEmitAffected cur prev seed := by
  unfold computeEmitAffected
  refine iterate_is_fixed_point _ (graphKeys cur) (subset_propagateStep cur prev seed)
    (propagateStep_bound cur prev seed) ∅ (Finset.empty_subset _) _ ?_
  unfold graphKeys
  calc (cur.symbols.map symKey).toFinset.card ≤ (cur.symbols.map symKey).length :=
        List.toFinset_card_le _
    _ = cur.symbols.length := List.length_map _ _

/-- A symbol of the current generation whose emit rule fires is added by
the propagation pass. -/
theorem mem_propagateStep_of_rule {cur prev : Graph} {seed acc : Finset SymKey}
    {s : SemSymbol} (hs : s ∈ cur.symbols) (hr : emitRule cur prev seed acc s = true) :
    symKey s ∈ propagateStep cur prev seed acc := by
  unfold propagateStep
  refine Finset.mem_union_right _ ?_
  rw [List.mem_toFinset]
  exact List.mem_map_of_mem symKey (List.mem_filter.mpr ⟨hs, hr⟩)

/-- A symbol of the current generation whose emit rule fires at every
accumulated set is emit-affected. -/
theorem mem_computeEmitAffected_of_rule {cur prev : Graph} {seed : Finset SymKey}
    {s : SemSymbol} (hs : s ∈ cur.symbols)
    (hr : ∀ acc, emitRule cur prev seed acc s = true) :
    symKey s ∈ computeEmitAffected cur prev seed := by
  unfold computeEmitAffected
  obtain ⟨m, hm⟩ : ∃ m, cur.symbols.length = m + 1 := by
    cases hlen : cur.symbols.length with
    | zero =>
        rw [List.length_eq_zero] at hlen
        rw [hlen] at hs
        exact absurd hs (List.not_mem_nil s)
    | succ m => exact ⟨m, rfl⟩
  rw [hm, Function.iterate_succ_apply']
  exact mem_propagateStep_of_rule hs (hr _)

/-- The emit-affected set is contained in every set closed under the
propagation pass. -/
theorem computeEmitAffected_subset_of_closed {cur prev : Graph} {seed T : Finset SymKey}
    (hT : propagateStep cur prev seed T ⊆ T) :
    computeEmitAffected cur prev seed ⊆ T := by
  unfold computeEmitAffected
  exact iterate_subset_of_closed _ (propagateStep_mono cur prev seed) ∅ T
    (Finset.empty_subset _) hT _

/-- When one propagation pass from the empty set adds nothing, the
emit-affected set is empty. -/
theorem computeEmitAffected_empty {cur prev : Graph} {seed : Finset SymKey}
    (h : propagateStep cur prev seed ∅ = ∅) : computeEmitAffected cur prev seed = ∅ := by
  unfold computeEmitAffected
  exact Function.iterate_fixed h _

/-- Membership in the one-step successor set, characterized by the
existence of an edge of the kind out of the frontier. -/
theorem mem_succsOf {g : Graph} {kd : EdgeKind} {s : Finset SymKey} {j : SymKey} :
    j ∈ succsOf g kd s ↔
      ∃ e, e ∈ g.edges ∧ e.kind = kd ∧ e.src ∈ s ∧ e.tgt = j := by
  unfold succsOf
  simp only [List.mem_toFinset, List.mem_map, List.mem_filter, Bool.and_eq_true,
    decide_eq_true_eq]
  constructor
  · rintro ⟨e, ⟨he, hk, hsrc⟩, ht⟩
    exact ⟨e, he, hk, hsrc, ht⟩
  · rintro ⟨e, he, hk, hsrc, ht⟩
    exact ⟨e, ⟨he, hk, hsrc⟩, ht⟩

/-- The saturation step of the reachability computation is inflationary. -/
theorem subset_reachStep (g : Graph) (kd : EdgeKind) (s : Finset SymKey) :
    s ⊆ reachStep g kd s :=
  Finset.subset_union_left

/-- One-step successor sets are contained in the edge-target universe. -/
theorem succsOf_subset_targets (g : Graph) (kd : EdgeKind) (s : Finset SymKey) :
    succsOf g kd s ⊆ edgeTargets g kd := by
  intro x hx
  rw [mem_succsOf] at hx
  obtain ⟨e, he, hk, _, ht⟩ := hx
  unfold edgeTargets
  rw [List.mem_toFinset]
  exact ht ▸ List.mem_map_of_mem Edge.tgt
    (List.mem_filter.mpr ⟨he, by simpa using hk⟩)

/-- The reachability computation is saturated: one more step adds no
key. -/
theorem reach_fixed (g : Graph) (kd : EdgeKind) (k : SymKey) :
    reachStep g kd (reach g kd k) = reach g kd k := by
  unfold reach
  refine iterate_is_fixed_point _ (edgeTargets g kd) (subset_reachStep g kd) ?_ _
    (succsOf_subset_targets g kd _) _ ?_
  · intro s hs x hx
    unfold reachStep at hx
    rw [Finset.mem_union] at hx
    rcases hx with hxs | hxn
    · exact hs hxs
    · exact succsOf_subset_targets g kd s hxn
  · unfold edgeTargets
    calc ((g.edges.filter (fun e => decide (e.kind = kd))).map Edge.tgt).toFinset.card
        ≤ ((g.edges.filter (fun e => decide (e.kind = kd))).map Edge.tgt).length :=
          List.toFinset_card_le _
      _ = (g.edges.filter (fun e => decide (e.kind = kd))).length := List.length_map _ _
      _ ≤ g.edges.length := List.length_filter_le _ _

/-- Soundness of the reachability computation: every computed key is
transitively referenced. -/
theorem reach_sound {g : Graph} {kd : EdgeKind} {k j : SymKey}
    (hj : j ∈ reach g kd k) : ReachesVia g kd k j := by
  revert hj
  unfold reach
  suffices h : ∀ (n : Nat) (s : Finset SymKey), (∀ i ∈ s, ReachesVia g kd k i) →
      ∀ i ∈ (reachStep g kd)^[n] s, ReachesVia g kd k i by
    intro hj
    refine h g.edges.length (succsOf g kd {k}) ?_ j hj
    intro i hi
    rw [mem_succsOf] at hi
    obtain ⟨e, he, hk, hsrc, ht⟩ := hi
    rw [Finset.mem_singleton] at hsrc
    have := ReachesVia.single (g := g) e he hk
    rw [hsrc] at this
    exact ht ▸ this
  intro n
  induction n with
  | zero => intro s hs i hi; exact hs i hi
  | succ m ih =>
      intro s hs i hi
      rw [Function.iterate_succ_apply] at hi
      refine ih (reachStep g kd s) ?_ i hi
      intro x hx
      unfold reachStep at hx
      rw [Finset.mem_union] at hx
      rcases hx with hxs | hxn
      · exact hs x hxs
      · rw [mem_succsOf] at hxn
        obtain ⟨e, he, hk, hsrc, ht⟩ := hxn
        exact ht ▸ ReachesVia.tail k e (hs e.src hsrc) he hk

/-- Completeness of the reachability computation: every transitively
referenced key is computed. -/
theorem reach_complete {g : Graph} {kd : EdgeKind} {k j : SymKey}
    (h : ReachesVia g kd k j) : j ∈ reach g kd k := by
  induction h with
  | single e he hk =>
      have hbase : e.tgt ∈ succsOf g kd {e.src} := by
        rw [mem_succsOf]
        exact ⟨e, he, hk, Finset.mem_singleton_self _, rfl⟩
      exact subset_iterate _ (subset_reachStep g kd) _ _ hbase
  | tail a e hr he hk ih =>
      have hnext : e.tgt ∈ succsOf g kd (reach g kd a) := by
        rw [mem_succsOf]
        exact ⟨e, he, hk, ih, rfl⟩
      have hstep : e.tgt ∈ reachStep g kd (reach g kd a) :=
        Finset.mem_union_right _ hnext
      rw [reach_fixed] at hstep
      exact hstep

/-- The reachability computation computes exactly the transitive
reference relation. -/
theorem mem_reach_iff {g : Graph} {kd : EdgeKind} {k j : SymKey} :
    j ∈ reach g kd k ↔ ReachesVia g kd k j :=
  ⟨reach_sound, reach_complete⟩

/-- Transitive references compose. -/
theorem reachesVia_trans {g : Graph} {kd : EdgeKind} {a b c : SymKey}
    (h1 : ReachesVia g kd a b) (h2 : ReachesVia g kd b c) : ReachesVia g kd a c := by
  induction h2 with
  | single e he hk => exact ReachesVia.tail a e h1 he hk
  | tail b' e hr he hk ih => exact ReachesVia.tail a e (ih h1) he hk

/-- Finding a symbol by its own key returns the symbol itself when keys
are unique in the generation. -/
theorem find?_key_self {l : List SemSymbol} (hkeys : (l.map symKey).Nodup)
    {s : SemSymbol} (hs : s ∈ l) :
    l.find? (fun t => decide (symKey t = symKey s)) = some s := by
  induction l with
  | nil => cases hs
  | cons a l ih =>
      rw [List.map_cons, List.nodup_cons] at hkeys
      rcases List.mem_cons.mp hs with rfl | hmem
      · rw [List.find?_cons_of_pos _ (by simp)]
      · have hne : (fun t => decide (symKey t = symKey s)) a = false := by
          rw [decide_eq_false_iff_not]
          intro heq
          exact hkeys.1 (heq ▸ List.mem_map_of_mem symKey hmem)
        rw [List.find?_cons_of_neg _ (by simp only [hne]; exact Bool.false_ne_true)]
        exact ih hkeys.2 hmem

/-- Looking up a symbol of a generation with unique keys by its own key
returns the symbol itself. -/
theorem lookupSymbol_self {g : Graph} (hkeys : (g.symbols.map symKey).Nodup)
    {s : SemSymbol} (hs : s ∈ g.symbols) :
    lookupSymbol g (symKey s) = some s :=
  find?_key_self hkeys hs

/-- Comparing a public API against itself reports it unaffected. -/
theorem isPublicApiAffected_self (api : SymbolApi) :
    isPublicApiAffected api api = false := by
  cases api <;> simp [isPublicApiAffected]

/-- A current-generation symbol with no identifier is in the changed-set
computed by the diff engine. -/
theorem mem_computeChangedSymbols_of_none {cur prev : Graph} {s : SemSymbol}
    (hs : s ∈ cur.symbols) (hid : s.identifier = none) :
    symKey s ∈ computeChangedSymbols cur prev := by
  unfold computeChangedSymbols
  rw [List.mem_toFinset]
  refine List.mem_map_of_mem symKey (List.mem_filter.mpr ⟨hs, ?_⟩)
  unfold symbolChanged
  rw [hid]
  simp

/-- Membership in the written-artifact set, per artifact kind. -/
theorem mem_writtenArtifacts {reemit : Finset String} {u : String} :
    ((u, ArtifactKind.primaryJs) ∈ writtenArtifacts reemit ↔ u ∈ reemit) ∧
      ((u, ArtifactKind.declarationDts) ∈ writtenArtifacts reemit ↔ u ∈ reemit) := by
  unfold writtenArtifacts
  simp only [Finset.mem_union, Finset.mem_image, Prod.mk.injEq]
  constructor
  · constructor
    · rintro (⟨v, hv, rfl, _⟩ | ⟨v, hv, rfl, hk⟩)
      · exact hv
      · cases hk
    · intro hu
      exact Or.inl ⟨u, hu, rfl, trivial⟩
  · constructor
    · rintro (⟨v, hv, rfl, hk⟩ | ⟨v, hv, rfl, _⟩)
      · cases hk
      · exact hv
    · intro hu
      exact Or.inr ⟨u, hu, rfl, trivial⟩

/-- The computed remote-scope cycle participation of a symbol is exactly
the set of symbols on a common remote-scope cycle with it. -/
theorem mem_rscCycleSet_iff {g : Graph} {m x : SymKey} :
    x ∈ rscCycleSet g m ↔ onCommonRscCycle g m x := by
  unfold rscCycleSet onCommonRscCycle
  by_cases hm : m ∈ reach g EdgeKind.RemoteScopeCycle m
  · rw [if_pos hm, Finset.mem_filter]
    constructor
    · rintro ⟨hx, hxm⟩
      exact ⟨reach_sound hx, reach_sound hxm⟩
    · rintro ⟨h1, h2⟩
      exact ⟨reach_complete h1, reach_complete h2⟩
  · rw [if_neg hm]
    simp only [Finset.not_mem_empty, false_iff]
    rintro ⟨h1, h2⟩
    exact hm (reach_complete (reachesVia_trans h1 h2))

/-- C1 counterexample: for a top-level class declaration that carries no
export modifier, the second definition of the identity resolver
(api.ts lines 129-138) returns the class name rather than the `None` the
claim demands for non-exported declarations. -/
theorem c1_counterexample :
    V1.hasExportModifier ⟨ParentNode.SourceFile, none, ⟨"Foo"⟩⟩ = false ∧
      V2.getSymbolIdentifier ⟨ParentNode.SourceFile, none, ⟨"Foo"⟩⟩ = some "Foo" :=
  ⟨rfl, rfl⟩

/-- C1 (amended): the first definition of `getSymbolIdentifier` returns
the class name exactly for direct, top-level, exported class declarations
and `None` otherwise; the second definition returns the class name
exactly for top-level class declarations, exported or not, and `None`
only for declarations whose parent is not the source file. -/
theorem c1_identifier_resolution (decl : ClassDeclaration) :
    (V1.getSymbolIdentifier decl = some decl.name.text ↔
      (isSourceFile decl.parent = true ∧ V1.hasExportModifier decl = true))
    ∧ (V1.getSymbolIdentifier decl = none ↔
      ¬(isSourceFile decl.parent = true ∧ V1.hasExportModifier decl = true))
    ∧ (V2.getSymbolIdentifier decl = some decl.name.text ↔
      isSourceFile decl.parent = true)
    ∧ (V2.getSymbolIdentifier decl = none ↔ isSourceFile decl.parent = false) := by
  unfold V1.getSymbolIdentifier V2.getSymbolIdentifier
  by_cases hp : isSourceFile decl.parent
  · by_cases he : V1.hasExportModifier decl
    · simp [hp, he]
    · simp only [Bool.not_eq_true] at he
      simp [hp, he]
  · simp only [Bool.not_eq_true] at hp
    simp [hp]

/-- C1 witness: the amended characterization applied to a concrete
exported top-level declaration. -/
theorem c1_identifier_resolution_witness :
    V1.getSymbolIdentifier
        ⟨ParentNode.SourceFile, some [⟨SyntaxKind.ExportKeyword⟩], ⟨"Cmp"⟩⟩ =
      some "Cmp" :=
  ((c1_identifier_resolution
      ⟨ParentNode.SourceFile, some [⟨SyntaxKind.ExportKeyword⟩], ⟨"Cmp"⟩⟩).1).mpr
    ⟨rfl, rfl⟩

/-- C10 counterexample: the two definitions of `getSymbolIdentifier`
disagree on a top-level class declaration with an empty modifier list:
the first returns `None`, the second returns the class name. -/
theorem c10_counterexample :
    V1.getSymbolIdentifier ⟨ParentNode.SourceFile, some [], ⟨"Bar"⟩⟩ ≠
      V2.getSymbolIdentifier ⟨ParentNode.SourceFile, some [], ⟨"Bar"⟩⟩ := by
  decide

/-- C10 (amended): the two definitions of `getSymbolIdentifier` agree on
a class declaration exactly when the declaration is not top-level or
carries an export modifier; they differ exactly on top-level non-exported
class declarations. -/
theorem c10_agreement (decl : ClassDeclaration) :
    V1.getSymbolIdentifier decl = V2.getSymbolIdentifier decl ↔
      (isSourceFile decl.parent = false ∨ V1.hasExportModifier decl = true) := by
  unfold V1.getSymbolIdentifier V2.getSymbolIdentifier
  by_cases hp : isSourceFile decl.parent
  · by_cases he : V1.hasExportModifier decl
    · simp [hp, he]
    · simp only [Bool.not_eq_true] at he
      simp [hp, he]
  · simp only [Bool.not_eq_true] at hp
    simp [hp]

/-- C10 witness: the agreement criterion applied to a concrete nested
declaration, on which both definitions return `None`. -/
theorem c10_agreement_witness :
    V1.getSymbolIdentifier ⟨ParentNode.FunctionBody, none, ⟨"Inner"⟩⟩ =
      V2.getSymbolIdentifier ⟨ParentNode.FunctionBody, none, ⟨"Inner"⟩⟩ :=
  (c10_agreement ⟨ParentNode.FunctionBody, none, ⟨"Inner"⟩⟩).mpr (Or.inl rfl)

/-- C2: in every generation pair, a current-generation symbol whose
identifier is `None` is in the changed-symbol (public-API-affected) set
of the diff engine and in the emit-affected set of the propagation
engine, whatever the propagation seed. -/
theorem c2_conservative_identity (cur prev : Graph) (seed : Finset SymKey)
    (s : SemSymbol) (hs : s ∈ cur.symbols) (hid : s.identifier = none) :
    symKey s ∈ computeChangedSymbols cur prev ∧
      symKey s ∈ computeEmitAffected cur prev seed := by
  refine ⟨mem_computeChangedSymbols_of_none hs hid, ?_⟩
  refine mem_computeEmitAffected_of_rule hs ?_
  intro acc
  unfold emitRule
  rw [hid]
  simp

/-- C2 witness: the conservative-identity property at a concrete
generation pair containing an identifier-less symbol. -/
theorem c2_conservative_identity_witness :
    symKey ⟨"/f.ts", none, SymbolApi.pipeKind "p"⟩ ∈
        computeChangedSymbols ⟨[⟨"/f.ts", none, SymbolApi.pipeKind "p"⟩], []⟩ ⟨[], []⟩ ∧
      symKey ⟨"/f.ts", none, SymbolApi.pipeKind "p"⟩ ∈
        computeEmitAffected ⟨[⟨"/f.ts", none, SymbolApi.pipeKind "p"⟩], []⟩ ⟨[], []⟩ ∅ :=
  c2_conservative_identity ⟨[⟨"/f.ts", none, SymbolApi.pipeKind "p"⟩], []⟩ ⟨[], []⟩ ∅
    ⟨"/f.ts", none, SymbolApi.pipeKind "p"⟩ (List.mem_singleton.mpr rfl) rfl

/-- C3 counterexample: diffing a generation against an identical
generation is not always empty: a graph holding a symbol with no
identifier yields a non-empty changed-symbol set, because an
identifier-less symbol is conservatively treated as changed in every
generation pair. -/
theorem c3_counterexample :
    computeChangedSymbols ⟨[⟨"/f.ts", none, SymbolApi.pipeKind "p"⟩], []⟩
        ⟨[⟨"/f.ts", none, SymbolApi.pipeKind "p"⟩], []⟩ ≠ ∅ := by
  decide

/-- C3 (amended): for every graph whose symbols all have identifiers and
whose keys are unique, diffing a generation against itself yields no
changed symbols, propagation over the pair yields no emit-affected
symbols, and the final re-emit set is exactly the directly changed
units. -/
theorem c3_stability (g : Graph)
    (hids : ∀ s ∈ g.symbols, s.identifier ≠ none)
    (hkeys : (g.symbols.map symKey).Nodup) :
    computeChangedSymbols g g = ∅ ∧
      computeEmitAffected g g (computeChangedSymbols g g) = ∅ ∧
      ∀ directlyChanged, finalReemitSet g g directlyChanged = directlyChanged := by
  have hchanged : computeChangedSymbols g g = ∅ := by
    unfold computeChangedSymbols
    have hfilter : g.symbols.filter (symbolChanged g) = [] := by
      rw [List.filter_eq_nil_iff]
      intro s hs
      have hbody : symbolChanged g s =
          (s.identifier.isNone || isPublicApiAffected s.api s.api) := by
        unfold symbolChanged
        rw [lookupSymbol_self hkeys hs]
      rw [hbody, isPublicApiAffected_self, Bool.or_false]
      obtain ⟨v, hv⟩ := Option.ne_none_iff_exists'.mp (hids s hs)
      rw [hv]
      simp
    rw [hfilter]
    simp
  have hemit : computeEmitAffected g g (computeChangedSymbols g g) = ∅ := by
    rw [hchanged]
    refine computeEmitAffected_empty ?_
    unfold propagateStep
    have hfil : g.symbols.filter (emitRule g g ∅ ∅) = [] := by
      rw [List.filter_eq_nil_iff]
      intro s hs
      obtain ⟨v, hv⟩ := Option.ne_none_iff_exists'.mp (hids s hs)
      unfold emitRule hasEdgeInto
      simp [hv]
    rw [hfil]
    simp
  have hfix : remoteScopeFixups g g = ∅ := by
    unfold remoteScopeFixups
    have hfil : g.symbols.filter
        (fun s => !(decide (rscCycleSet g (symKey s) = rscCycleSet g (symKey s)))) = [] := by
      rw [List.filter_eq_nil_iff]
      intro s _
      simp
    rw [hfil]
    simp
  refine ⟨hchanged, hemit, ?_⟩
  intro directlyChanged
  unfold finalReemitSet
  rw [hemit, hfix]
  simp [projectToFiles]

/-- C4: a current-generation symbol whose transitively template-matched
symbol set differs from the previous generation is emit-affected,
whatever the propagation seed — in particular even when no matched
symbol's own public API changed; the inequality hypothesis is symmetric,
so an added and a removed match are treated identically. -/
theorem c4_template_match_change (cur prev : Graph) (seed : Finset SymKey)
    (s : SemSymbol) (hs : s ∈ cur.symbols)
    (hdiff : templateMatchSet cur (symKey s) ≠ templateMatchSet prev (symKey s)) :
    symKey s ∈ computeEmitAffected cur prev seed := by
  refine mem_computeEmitAffected_of_rule hs ?_
  intro acc
  unfold emitRule
  simp [hdiff]

/-- C4 witness: a concrete component gains a template match between
generations and is emit-affected even with an empty seed. -/
theorem c4_template_match_change_witness :
    symKey ⟨"/a.ts", some "A", SymbolApi.pipeKind "p"⟩ ∈
      computeEmitAffected
        ⟨[⟨"/a.ts", some "A", SymbolApi.pipeKind "p"⟩],
         [⟨("/a.ts", some "A"), EdgeKind.TemplateMatch, ("/b.ts", some "B")⟩]⟩
        ⟨[⟨"/a.ts", some "A", SymbolApi.pipeKind "p"⟩], []⟩ ∅ :=
  c4_template_match_change
    ⟨[⟨"/a.ts", some "A", SymbolApi.pipeKind "p"⟩],
     [⟨("/a.ts", some "A"), EdgeKind.TemplateMatch, ("/b.ts", some "B")⟩]⟩
    ⟨[⟨"/a.ts", some "A", SymbolApi.pipeKind "p"⟩], []⟩ ∅
    ⟨"/a.ts", some "A", SymbolApi.pipeKind "p"⟩ (List.mem_singleton.mpr rfl)
    (by decide)

/-- C6: cyclic edges alone never force invalidation: for a generation
pair with an empty changed-symbol set and unchanged template-match sets,
the propagation fixpoint is empty, even when the current graph contains
an edge cycle between two symbols. -/
theorem c6_cycle_safety (cur prev : Graph) (a b : SymKey) (e1 e2 : Edge)
    (_he1 : e1 ∈ cur.edges) (_h1s : e1.src = a) (_h1t : e1.tgt = b)
    (_he2 : e2 ∈ cur.edges) (_h2s : e2.src = b) (_h2t : e2.tgt = a)
    (hseed : computeChangedSymbols cur prev = ∅)
    (htm : ∀ s ∈ cur.symbols,
      templateMatchSet cur (symKey s) = templateMatchSet prev (symKey s)) :
    computeEmitAffected cur prev (computeChangedSymbols cur prev) = ∅ := by
  rw [hseed]
  refine computeEmitAffected_empty ?_
  unfold propagateStep
  have hfil : cur.symbols.filter (emitRule cur prev ∅ ∅) = [] := by
    rw [List.filter_eq_nil_iff]
    intro s hs
    have hid : s.identifier ≠ none := by
      intro hnone
      have hmem : symKey s ∈ computeChangedSymbols cur prev :=
        mem_computeChangedSymbols_of_none hs hnone
      rw [hseed] at hmem
      exact absurd hmem (Finset.not_mem_empty _)
    obtain ⟨v, hv⟩ := Option.ne_none_iff_exists'.mp hid
    unfold emitRule hasEdgeInto
    simp [hv, htm s hs]
  rw [hfil]
  simp

/-- C6 witness: a concrete identical generation pair whose graph holds a
two-symbol reference cycle yields an empty emit-affected set. -/
theorem c6_cycle_safety_witness :
    computeEmitAffected
        ⟨[⟨"/a.ts", some "A", SymbolApi.pipeKind "p"⟩,
          ⟨"/b.ts", some "B", SymbolApi.pipeKind "q"⟩],
         [⟨("/a.ts", some "A"), EdgeKind.DirectReference, ("/b.ts", some "B")⟩,
          ⟨("/b.ts", some "B"), EdgeKind.DirectReference, ("/a.ts", some "A")⟩]⟩
        ⟨[⟨"/a.ts", some "A", SymbolApi.pipeKind "p"⟩,
          ⟨"/b.ts", some "B", SymbolApi.pipeKind "q"⟩],
         [⟨("/a.ts", some "A"), EdgeKind.DirectReference, ("/b.ts", some "B")⟩,
          ⟨("/b.ts", some "B"), EdgeKind.DirectReference, ("/a.ts", some "A")⟩]⟩
        (computeChangedSymbols
          ⟨[⟨"/a.ts", some "A", SymbolApi.pipeKind "p"⟩,
            ⟨"/b.ts", some "B", SymbolApi.pipeKind "q"⟩],
           [⟨("/a.ts", some "A"), EdgeKind.DirectReference, ("/b.ts", some "B")⟩,
            ⟨("/b.ts", some "B"), EdgeKind.DirectReference, ("/a.ts", some "A")⟩]⟩
          ⟨[⟨"/a.ts", some "A", SymbolApi.pipeKind "p"⟩,
            ⟨"/b.ts", some "B", SymbolApi.pipeKind "q"⟩],
           [⟨("/a.ts", some "A"), EdgeKind.DirectReference, ("/b.ts", some "B")⟩,
            ⟨("/b.ts", some "B"), EdgeKind.DirectReference, ("/a.ts", some "A")⟩]⟩) = ∅ :=
  c6_cycle_safety _ _ ("/a.ts", some "A") ("/b.ts", some "B")
    ⟨("/a.ts", some "A"), EdgeKind.DirectReference, ("/b.ts", some "B")⟩
    ⟨("/b.ts", some "B"), EdgeKind.DirectReference, ("/a.ts", some "A")⟩
    (by decide) rfl rfl (by decide) rfl rfl (by decide) (by decide)

/-- C8: the propagation fixpoint is monotone across iterations, one more
re-scan of the computed emit-affected set adds no symbol (termination
within as many iterations as there are nodes), and the result is
independent of the node processing order. -/
theorem c8_monotone_terminating (cur prev : Graph) (seed : Finset SymKey) :
    (∀ k : Nat, (propagateStep cur prev seed)^[k] ∅ ⊆
      (propagateStep cur prev seed)^[k + 1] ∅)
    ∧ propagateStep cur prev seed (computeEmitAffected cur prev seed) =
        computeEmitAffected cur prev seed
    ∧ ∀ l : List SemSymbol, l.Perm cur.symbols →
        computeEmitAffected ⟨l, cur.edges⟩ prev seed =
          computeEmitAffected cur prev seed := by
  refine ⟨?_, computeEmitAffected_fixed cur prev seed, ?_⟩
  · intro k
    rw [Function.iterate_succ_apply']
    exact subset_propagateStep cur prev seed _
  · intro l hperm
    have hstep : propagateStep ⟨l, cur.edges⟩ prev seed = propagateStep cur prev seed := by
      funext acc
      unfold propagateStep
      congr 1
      apply List.toFinset_eq_of_perm
      exact (hperm.filter _).map _
    show (propagateStep ⟨l, cur.edges⟩ prev seed)^[l.length] ∅ =
      (propagateStep cur prev seed)^[cur.symbols.length] ∅
    rw [hperm.length_eq, hstep]

/-- C8 witness: order independence, termination and monotonicity at a
concrete two-symbol graph processed in swapped order. -/
theorem c8_monotone_terminating_witness :
    computeEmitAffected
        ⟨[⟨"/b.ts", some "B", SymbolApi.pipeKind "q"⟩,
          ⟨"/a.ts", some "A", SymbolApi.pipeKind "p"⟩], []⟩
        ⟨[], []⟩ ∅ =
      computeEmitAffected
        ⟨[⟨"/a.ts", some "A", SymbolApi.pipeKind "p"⟩,
          ⟨"/b.ts", some "B", SymbolApi.pipeKind "q"⟩], []⟩
        ⟨[], []⟩ ∅ :=
  (c8_monotone_terminating
      ⟨[⟨"/a.ts", some "A", SymbolApi.pipeKind "p"⟩,
        ⟨"/b.ts", some "B", SymbolApi.pipeKind "q"⟩], []⟩
      ⟨[], []⟩ ∅).2.2
    [⟨"/b.ts", some "B", SymbolApi.pipeKind "q"⟩,
     ⟨"/a.ts", some "A", SymbolApi.pipeKind "p"⟩]
    (List.Perm.swap _ _ _)

/-- C5: remote-scope cycle handling.  The computed cycle participation of
a current-generation symbol is exactly the set of symbols on a common
`RemoteScopeCycle` reference cycle with it; whenever the symbol's
participation in a cycle with any symbol differs between the generations
(newly cyclic, no longer cyclic, or changed membership), the symbol is in
the remote-scope fixup set and its file is in the final re-emit set,
independent of its own public-API fields; and when no symbol's
participation differs, the fixup set adds nothing. -/
theorem c5_remote_scope_cycles (cur prev : Graph) (s : SemSymbol)
    (hs : s ∈ cur.symbols) :
    (∀ x, x ∈ rscCycleSet cur (symKey s) ↔ onCommonRscCycle cur (symKey s) x)
    ∧ (∀ m, ¬(onCommonRscCycle cur m (symKey s) ↔ onCommonRscCycle prev m (symKey s)) →
        symKey s ∈ remoteScopeFixups cur prev ∧
          ∀ directlyChanged, s.path ∈ finalReemitSet cur prev directlyChanged)
    ∧ ((∀ t ∈ cur.symbols, rscCycleSet cur (symKey t) = rscCycleSet prev (symKey t)) →
        remoteScopeFixups cur prev = ∅) := by
  refine ⟨fun x => mem_rscCycleSet_iff, ?_, ?_⟩
  · intro m hdiff
    have hswap : ∀ (g : Graph), m ∈ rscCycleSet g (symKey s) ↔
        onCommonRscCycle g m (symKey s) := by
      intro g
      rw [mem_rscCycleSet_iff]
      constructor
      · rintro ⟨h1, h2⟩
        exact ⟨h2, h1⟩
      · rintro ⟨h1, h2⟩
        exact ⟨h2, h1⟩
    have hne : rscCycleSet cur (symKey s) ≠ rscCycleSet prev (symKey s) := by
      intro heq
      apply hdiff
      rw [← hswap cur, ← hswap prev, heq]
    have hmemfix : symKey s ∈ remoteScopeFixups cur prev := by
      unfold remoteScopeFixups
      rw [List.mem_toFinset]
      refine List.mem_map_of_mem symKey (List.mem_filter.mpr ⟨hs, ?_⟩)
      simp [hne]
    refine ⟨hmemfix, ?_⟩
    intro directlyChanged
    unfold finalReemitSet
    refine Finset.mem_union_right _ ?_
    unfold projectToFiles
    exact Finset.mem_image.mpr ⟨symKey s, hmemfix, rfl⟩
  · intro hall
    unfold remoteScopeFixups
    have hfil : cur.symbols.filter
        (fun t => !(decide (rscCycleSet cur (symKey t) = rscCycleSet prev (symKey t)))) =
          [] := by
      rw [List.filter_eq_nil_iff]
      intro t ht
      simp [hall t ht]
    rw [hfil]
    simp

/-- C5 witness: a concrete pair in which a module-like and a
component-like symbol become mutually cyclic through `RemoteScopeCycle`
edges; the component is in the remote-scope fixup set. -/
theorem c5_remote_scope_cycles_witness :
    symKey ⟨"/cmp.ts", some "X", SymbolApi.directiveKind "sel" ∅ ∅ ∅⟩ ∈
      remoteScopeFixups
        ⟨[⟨"/mod.ts", some "M", SymbolApi.moduleKind ∅ ∅⟩,
          ⟨"/cmp.ts", some "X", SymbolApi.directiveKind "sel" ∅ ∅ ∅⟩],
         [⟨("/mod.ts", some "M"), EdgeKind.RemoteScopeCycle, ("/cmp.ts", some "X")⟩,
          ⟨("/cmp.ts", some "X"), EdgeKind.RemoteScopeCycle, ("/mod.ts", some "M")⟩]⟩
        ⟨[⟨"/mod.ts", some "M", SymbolApi.moduleKind ∅ ∅⟩,
          ⟨"/cmp.ts", some "X", SymbolApi.directiveKind "sel" ∅ ∅ ∅⟩], []⟩ :=
  ((c5_remote_scope_cycles
      ⟨[⟨"/mod.ts", some "M", SymbolApi.moduleKind ∅ ∅⟩,
        ⟨"/cmp.ts", some "X", SymbolApi.directiveKind "sel" ∅ ∅ ∅⟩],
       [⟨("/mod.ts", some "M"), EdgeKind.RemoteScopeCycle, ("/cmp.ts", some "X")⟩,
        ⟨("/cmp.ts", some "X"), EdgeKind.RemoteScopeCycle, ("/mod.ts", some "M")⟩]⟩
      ⟨[⟨"/mod.ts", some "M", SymbolApi.moduleKind ∅ ∅⟩,
        ⟨"/cmp.ts", some "X", SymbolApi.directiveKind "sel" ∅ ∅ ∅⟩], []⟩
      ⟨"/cmp.ts", some "X", SymbolApi.directiveKind "sel" ∅ ∅ ∅⟩
      (by simp)).2.1 ("/mod.ts", some "M")
    (by
      intro hiff
      have hcur : onCommonRscCycle
          ⟨[⟨"/mod.ts", some "M", SymbolApi.moduleKind ∅ ∅⟩,
            ⟨"/cmp.ts", some "X", SymbolApi.directiveKind "sel" ∅ ∅ ∅⟩],
           [⟨("/mod.ts", some "M"), EdgeKind.RemoteScopeCycle, ("/cmp.ts", some "X")⟩,
            ⟨("/cmp.ts", some "X"), EdgeKind.RemoteScopeCycle, ("/mod.ts", some "M")⟩]⟩
          ("/mod.ts", some "M")
          (symKey ⟨"/cmp.ts", some "X", SymbolApi.directiveKind "sel" ∅ ∅ ∅⟩) := by
        constructor
        · exact ReachesVia.single
            ⟨("/mod.ts", some "M"), EdgeKind.RemoteScopeCycle, ("/cmp.ts", some "X")⟩
            (by simp) rfl
        · exact ReachesVia.single
            ⟨("/cmp.ts", some "X"), EdgeKind.RemoteScopeCycle, ("/mod.ts", some "M")⟩
            (by simp) rfl
      obtain ⟨h1, -⟩ := hiff.mp hcur
      exact absurd (reach_complete h1) (by decide))).1

/-- C9: a compilation unit is in the final re-emit set exactly when its
primary output artifact is written and exactly when its declaration
artifact is written: the two artifacts are always produced as a pair,
both or neither. -/
theorem c9_artifact_pairing (cur prev : Graph) (directlyChanged : Finset String)
    (u : String) :
    ((u, ArtifactKind.primaryJs) ∈
        writtenArtifacts (finalReemitSet cur prev directlyChanged) ↔
      u ∈ finalReemitSet cur prev directlyChanged)
    ∧ ((u, ArtifactKind.declarationDts) ∈
        writtenArtifacts (finalReemitSet cur prev directlyChanged) ↔
      u ∈ finalReemitSet cur prev directlyChanged) :=
  mem_writtenArtifacts

/-- C9 witness: the artifact-pairing property at a concrete generation
pair and unit. -/
theorem c9_artifact_pairing_witness :
    (("/app/mod", ArtifactKind.primaryJs) ∈
        writtenArtifacts (finalReemitSet ⟨[], []⟩ ⟨[], []⟩ {"/app/mod"}) ↔
      "/app/mod" ∈ finalReemitSet ⟨[], []⟩ ⟨[], []⟩ {"/app/mod"})
    ∧ (("/app/mod", ArtifactKind.declarationDts) ∈
        writtenArtifacts (finalReemitSet ⟨[], []⟩ ⟨[], []⟩ {"/app/mod"}) ↔
      "/app/mod" ∈ finalReemitSet ⟨[], []⟩ ⟨[], []⟩ {"/app/mod"}) :=
  c9_artifact_pairing ⟨[], []⟩ ⟨[], []⟩ {"/app/mod"} "/app/mod"

/-- C7: when the changed-symbol set is exactly one symbol `B`, the
template-match sets are unchanged and the graph has no remote-scope
edges, the emit-affected set is exactly `B` together with its direct
consumers — the symbols with a `DirectReference` or `TemplateMatch` edge
to `B`; in particular consumers of those consumers that do not themselves
reference `B` are not re-emitted. -/
theorem c7_direct_consumers_only (cur prev : Graph) (B : SemSymbol)
    (hB : B ∈ cur.symbols)
    (hseed : computeChangedSymbols cur prev = {symKey B})
    (htm : ∀ s ∈ cur.symbols,
      templateMatchSet cur (symKey s) = templateMatchSet prev (symKey s))
    (hkinds : ∀ e ∈ cur.edges, e.kind ≠ EdgeKind.RemoteScopeCycle) :
    computeEmitAffected cur prev (computeChangedSymbols cur prev) =
      insert (symKey B) (directConsumers cur (symKey B)) := by
  rw [hseed]
  apply Finset.Subset.antisymm
  · refine computeEmitAffected_subset_of_closed ?_
    intro x hx
    unfold propagateStep at hx
    rw [Finset.mem_union] at hx
    rcases hx with hxS | hxf
    · exact hxS
    · rw [List.mem_toFinset, List.mem_map] at hxf
      obtain ⟨s, hsf, hkey⟩ := hxf
      rw [List.mem_filter] at hsf
      obtain ⟨hs, hrule⟩ := hsf
      subst hkey
      unfold emitRule at hrule
      simp only [Bool.or_eq_true, Bool.and_eq_true, decide_eq_true_eq] at hrule
      rcases hrule with ((hsm | hnone) | ⟨hedge, hdef⟩) | htmne
      · rw [Finset.mem_singleton] at hsm
        rw [hsm]
        exact Finset.mem_insert_self _ _
      · have hmm : symKey s ∈ computeChangedSymbols cur prev :=
          mem_computeChangedSymbols_of_none hs (Option.isNone_iff_eq_none.mp hnone)
        rw [hseed, Finset.mem_singleton] at hmm
        rw [hmm]
        exact Finset.mem_insert_self _ _
      · unfold isEmitAffectedDefault hasEdgeInto at hdef
        simp only [List.any_eq_true, Bool.and_eq_true, decide_eq_true_eq,
          Finset.mem_singleton] at hdef
        obtain ⟨e, he, hsrc, htgt⟩ := hdef
        refine Finset.mem_insert_of_mem ?_
        unfold directConsumers
        rw [List.mem_toFinset]
        refine List.mem_map_of_mem symKey (List.mem_filter.mpr ⟨hs, ?_⟩)
        rw [List.any_eq_true]
        refine ⟨e, he, ?_⟩
        have hkind : e.kind = EdgeKind.DirectReference ∨
            e.kind = EdgeKind.TemplateMatch := by
          cases hek : e.kind with
          | DirectReference => exact Or.inl rfl
          | TemplateMatch => exact Or.inr rfl
          | RemoteScopeCycle => exact absurd hek (hkinds e he)
        unfold isConsumerEdge
        rcases hkind with hk | hk <;> simp [hsrc, htgt, hk]
      · rw [Bool.not_eq_true', decide_eq_false_iff_not] at htmne
        exact absurd (htm s hs) htmne
  · have hfix := computeEmitAffected_fixed cur prev {symKey B}
    have hBmem : symKey B ∈ computeEmitAffected cur prev {symKey B} := by
      rw [← hfix]
      refine mem_propagateStep_of_rule hB ?_
      unfold emitRule
      simp
    intro x hx
    rw [Finset.mem_insert] at hx
    rcases hx with rfl | hxc
    · exact hBmem
    · rw [← hfix]
      unfold directConsumers at hxc
      rw [List.mem_toFinset, List.mem_map] at hxc
      obtain ⟨s, hsf, hkey⟩ := hxc
      rw [List.mem_filter, List.any_eq_true] at hsf
      obtain ⟨hs, e, he, hce⟩ := hsf
      subst hkey
      refine mem_propagateStep_of_rule hs ?_
      unfold isConsumerEdge at hce
      simp only [Bool.and_eq_true, Bool.or_eq_true, decide_eq_true_eq] at hce
      obtain ⟨⟨hsrc, htgt⟩, hkind⟩ := hce
      unfold emitRule
      have hedge : hasEdgeInto cur (symKey s)
          (computeEmitAffected cur prev {symKey B}) = true := by
        unfold hasEdgeInto
        rw [List.any_eq_true]
        refine ⟨e, he, ?_⟩
        simp [hsrc, htgt, hBmem]
      have hdef : isEmitAffectedDefault cur (symKey s) {symKey B} = true := by
        unfold isEmitAffectedDefault hasEdgeInto
        rw [List.any_eq_true]
        refine ⟨e, he, ?_⟩
        simp [hsrc, htgt]
      simp [hedge, hdef]

/-- C7 witness: a concrete pair in which only `B`'s pipe name changed:
the emit-affected set is exactly `B` and its direct consumer `A`; the
indirect consumer `C` (which references only `A`) is not in it. -/
theorem c7_direct_consumers_only_witness :
    computeEmitAffected
        ⟨[⟨"/b.ts", some "B", SymbolApi.pipeKind "new"⟩,
          ⟨"/a.ts", some "A", SymbolApi.pipeKind "pa"⟩,
          ⟨"/c.ts", some "C", SymbolApi.pipeKind "pc"⟩],
         [⟨("/a.ts", some "A"), EdgeKind.DirectReference, ("/b.ts", some "B")⟩,
          ⟨("/c.ts", some "C"), EdgeKind.DirectReference, ("/a.ts", some "A")⟩]⟩
        ⟨[⟨"/b.ts", some "B", SymbolApi.pipeKind "old"⟩,
          ⟨"/a.ts", some "A", SymbolApi.pipeKind "pa"⟩,
          ⟨"/c.ts", some "C", SymbolApi.pipeKind "pc"⟩],
         [⟨("/a.ts", some "A"), EdgeKind.DirectReference, ("/b.ts", some "B")⟩,
          ⟨("/c.ts", some "C"), EdgeKind.DirectReference, ("/a.ts", some "A")⟩]⟩
        (computeChangedSymbols
          ⟨[⟨"/b.ts", some "B", SymbolApi.pipeKind "new"⟩,
            ⟨"/a.ts", some "A", SymbolApi.pipeKind "pa"⟩,
            ⟨"/c.ts", some "C", SymbolApi.pipeKind "pc"⟩],
           [⟨("/a.ts", some "A"), EdgeKind.DirectReference, ("/b.ts", some "B")⟩,
            ⟨("/c.ts", some "C"), EdgeKind.DirectReference, ("/a.ts", some "A")⟩]⟩
          ⟨[⟨"/b.ts", some "B", SymbolApi.pipeKind "old"⟩,
            ⟨"/a.ts", some "A", SymbolApi.pipeKind "pa"⟩,
            ⟨"/c.ts", some "C", SymbolApi.pipeKind "pc"⟩],
           [⟨("/a.ts", some "A"), EdgeKind.DirectReference, ("/b.ts", some "B")⟩,
            ⟨("/c.ts", some "C"), EdgeKind.DirectReference, ("/a.ts", some "A")⟩]⟩) =
      insert (symKey ⟨"/b.ts", some "B", SymbolApi.pipeKind "new"⟩)
        (directConsumers
          ⟨[⟨"/b.ts", some "B", SymbolApi.pipeKind "new"⟩,
            ⟨"/a.ts", some "A", SymbolApi.pipeKind "pa"⟩,
            ⟨"/c.ts", some "C", SymbolApi.pipeKind "pc"⟩],
           [⟨("/a.ts", some "A"), EdgeKind.DirectReference, ("/b.ts", some "B")⟩,
            ⟨("/c.ts", some "C"), EdgeKind.DirectReference, ("/a.ts", some "A")⟩]⟩
          (symKey ⟨"/b.ts", some "B", SymbolApi.pipeKind "new"⟩)) :=
  c7_direct_consumers_only
    ⟨[⟨"/b.ts", some "B", SymbolApi.pipeKind "new"⟩,
      ⟨"/a.ts", some "A", SymbolApi.pipeKind "pa"⟩,
      ⟨"/c.ts", some "C", SymbolApi.pipeKind "pc"⟩],
     [⟨("/a.ts", some "A"), EdgeKind.DirectReference, ("/b.ts", some "B")⟩,
      ⟨("/c.ts", some "C"), EdgeKind.DirectReference, ("/a.ts", some "A")⟩]⟩
    ⟨[⟨"/b.ts", some "B", SymbolApi.pipeKind "old"⟩,
      ⟨"/a.ts", some "A", SymbolApi.pipeKind "pa"⟩,
      ⟨"/c.ts", some "C", SymbolApi.pipeKind "pc"⟩],
     [⟨("/a.ts", some "A"), EdgeKind.DirectReference, ("/b.ts", some "B")⟩,
      ⟨("/c.ts", some "C"), EdgeKind.DirectReference, ("/a.ts", some "A")⟩]⟩
    ⟨"/b.ts", some "B", SymbolApi.pipeKind "new"⟩
    (by simp) (by decide) (by decide) (by decide)

/-- C3 witness: stability of an identical generation pair at a concrete
two-symbol graph with a reference edge. -/
theorem c3_stability_witness :
    computeChangedSymbols
        ⟨[⟨"/a.ts", some "A", SymbolApi.pipeKind "p"⟩,
          ⟨"/b.ts", some "B", SymbolApi.pipeKind "q"⟩],
         [⟨("/a.ts", some "A"), EdgeKind.DirectReference, ("/b.ts", some "B")⟩]⟩
        ⟨[⟨"/a.ts", some "A", SymbolApi.pipeKind "p"⟩,
          ⟨"/b.ts", some "B", SymbolApi.pipeKind "q"⟩],
         [⟨("/a.ts", some "A"), EdgeKind.DirectReference, ("/b.ts", some "B")⟩]⟩ = ∅ :=
  (c3_stability
    ⟨[⟨"/a.ts", some "A", SymbolApi.pipeKind "p"⟩,
      ⟨"/b.ts", some "B", SymbolApi.pipeKind "q"⟩],
     [⟨("/a.ts", some "A"), EdgeKind.DirectReference, ("/b.ts", some "B")⟩]⟩
    (by decide) (by decide)).1

end NgtscSemantics
